import Mathlib

/-!
# Launcher `run-control.c`: command-line assembly and process creation

A shallow embedding of `main` of `src/launcher/run-control.c`.

* A `char` is a natural number (its byte value); `0` is the NUL terminator.
* A C string argument (`argv[i]`, a string literal) is the list of its bytes
  before the terminator.
* The stack buffer `call_argv` is the list of its `CLLEN` bytes.  Every store
  is logged with its offset, so a store past the end of the array would show
  in the log.
* `strcpy_s`, `strcat_s` and `CreateProcess` belong to the C runtime and to
  the operating system; they are modelled after their documented contracts
  (release build of the runtime: nothing is stored behind the terminator).
* A bounds-checked string function that refuses its arguments invokes the
  invalid-parameter handler of the runtime.  The program installs none, so the
  default one (`Handler.terminate`) is in force; the other case is kept as
  `Handler.resume` to show what the ignored return values would lead to.
-/

namespace RunControl

/-! ## Constants -/

/-- The macro `CLLEN` of line 6, the size of `call_argv` in bytes. -/
def CLLEN : Nat := 4096

/-- The error code `EINVAL` of `errno.h`. -/
def EINVAL : Nat := 22

/-- The error code `ERANGE` of `errno.h`. -/
def ERANGE : Nat := 34

/-- Byte values of an ASCII string literal. -/
def bytes (s : String) : List Nat := s.toList.map Char.toNat

/-- The literal `"python\\python.exe cam-control\\control.py"` of line 11. -/
def PREFIX : List Nat := bytes "python\\python.exe cam-control\\control.py"

/-- The literal `" "` of line 13. -/
def SPACE : List Nat := bytes " "

/-! ## Memory and the C runtime string functions -/

/-- The array `call_argv`: its bytes, and the log of the offsets stored to,
oldest first. -/
structure Buf where
  mem : List Nat
  written : List Nat

/-- One store `dest[i] = v`. -/
def Buf.store (b : Buf) (i v : Nat) : Buf :=
  { mem := b.mem.set i v, written := b.written ++ [i] }

/-- The scan `while (available > 0 && *p != 0) { p++; available--; }` of
`strcat_s`; returns the final `(p, available)`. -/
def scan (m : List Nat) : (available p : Nat) → Nat × Nat
  | 0, p => (p, 0)
  | a + 1, p => if m.getD p 0 = 0 then (p, a + 1) else scan m a (p + 1)

/-- The copy loop `while ((*p++ = *src++) != 0 && --available > 0) {}` shared
by `strcpy_s` and `strcat_s`, entered with `available > 0`.  The end of the
list `src` is the terminating NUL of the source string.  Returns the memory
and the final value of `available`. -/
def copy (b : Buf) : (src : List Nat) → (p available : Nat) → Buf × Nat
  | [], p, a => (b.store p 0, a)
  | c :: cs, p, a =>
    if c = 0 then (b.store p 0, a)
    else if a - 1 = 0 then (b.store p c, 0)
    else copy (b.store p c) cs (p + 1) (a - 1)

/-- The call `strcpy_s(dest, size, src)` of the C runtime, `dest` at offset
`0`.  Returns the error code and the memory.  When the source and its terminator
do not fit, `dest[0]` is set to `0` and `ERANGE` is reported. -/
def strcpy_s (b : Buf) (size : Nat) (src : List Nat) : Nat × Buf :=
  if size = 0 then (EINVAL, b)
  else
    let r := copy b src 0 size
    if r.2 = 0 then (ERANGE, r.1.store 0 0) else (0, r.1)

/-- The call `strcat_s(dest, size, src)` of the C runtime, `dest` at offset
`0`.  Returns the error code and the memory.  When `dest` has no terminator among
its first `size` bytes, `dest[0]` is set to `0` and `EINVAL` is reported;
when the source and its terminator do not fit behind the string in `dest`,
`dest[0]` is set to `0` and `ERANGE` is reported. -/
def strcat_s (b : Buf) (size : Nat) (src : List Nat) : Nat × Buf :=
  if size = 0 then (EINVAL, b)
  else
    let pa := scan b.mem size 0
    if pa.2 = 0 then (EINVAL, b.store 0 0)
    else
      let r := copy b src pa.1 pa.2
      if r.2 = 0 then (ERANGE, r.1.store 0 0) else (0, r.1)

/-- The C string held at offset `p`: the bytes before the first NUL, reading
at most `n` bytes. -/
def readStr (m : List Nat) : (n p : Nat) → List Nat
  | 0, _ => []
  | n + 1, p => if m.getD p 0 = 0 then [] else m.getD p 0 :: readStr m n (p + 1)

/-! ## Environment -/

/-- What the C runtime does after a string function reports an invalid
parameter: the default handler terminates the process; a handler installed
with `_set_invalid_parameter_handler` may return, and the function then
returns its error code to the caller. -/
inductive Handler
  | terminate
  | resume
  deriving DecidableEq

/-- The `STARTUPINFO` block handed to `CreateProcess`: its `cb` field and its
remaining bytes. -/
structure STARTUPINFO where
  cb : Nat
  rest : List Nat
  deriving DecidableEq

/-- The parameters of one `CreateProcess` call (`none` is `NULL`). -/
structure SpawnRequest where
  applicationName : Option (List Nat)
  commandLine : List Nat
  processAttributes : Option Unit
  threadAttributes : Option Unit
  inheritHandles : Bool
  creationFlags : Nat
  environment : Option Unit
  currentDirectory : Option (List Nat)
  startupInfo : STARTUPINFO
  processInformation : List Nat
  deriving DecidableEq

/-- A call into the C runtime or the operating system, with its result. -/
inductive Call
  | strcpy_s (ret : Nat)
  | strcat_s (ret : Nat)
  | memset
  | createProcess (req : SpawnRequest) (ok : Bool)
  | wait
  deriving DecidableEq

/-- The surroundings of a run: the invalid-parameter handler in force, the
answer of the operating system to a process-creation request, and the sizes
of the two structures of `windows.h`. -/
structure Env where
  handler : Handler
  spawn : SpawnRequest → Bool
  sizeofStartupInfo : Nat
  sizeofProcessInformation : Nat

/-- State of a run of `main`. -/
structure State where
  call_argv : Buf
  calls : List Call
  terminated : Bool

/-- A statement that calls a bounds-checked string function and ignores its
return value.  On a non-zero code the invalid-parameter handler runs. -/
def crtCall (env : Env) (mk : Nat → Call) (f : Buf → Nat × Buf) (s : State) : State :=
  if s.terminated then s
  else
    let r := f s.call_argv
    { call_argv := r.2, calls := s.calls ++ [mk r.1],
      terminated := decide (r.1 ≠ 0) && decide (env.handler = Handler.terminate) }

/-! ## The program -/

/-- Lines 13-14, the body of the loop at index `i`. -/
def body (env : Env) (argv : List (List Nat)) (i : Nat) (s : State) : State :=
  let s1 := crtCall env Call.strcat_s (fun b => strcat_s b CLLEN SPACE) s
  crtCall env Call.strcat_s (fun b => strcat_s b CLLEN (argv.getD i [])) s1

/-- Lines 12-15, `for (...; i < argc; i++) { ... }`, entered at index `i`. -/
def loop (env : Env) (argv : List (List Nat)) (argc i : Nat) (s : State) : State :=
  if i < argc then loop env argv argc (i + 1) (body env argv i s) else s
termination_by argc - i

/-- Line 10, `char call_argv[CLLEN];`: the byte at offset `i` is the
unspecified `init i`, nothing has been stored or called yet. -/
def entry (init : Nat → Nat) : State :=
  { call_argv := { mem := (List.range CLLEN).map init, written := [] }, calls := [],
    terminated := false }

/-- Line 11, the copy of the prefix into `call_argv`. -/
def copyPrefix (env : Env) (s : State) : State :=
  crtCall env Call.strcpy_s (fun b => strcpy_s b CLLEN PREFIX) s

/-- Lines 10-15 with the loop `for (int i=1;i<argc;i++)` run up to the bound
`argc`. -/
def assembleUpTo (env : Env) (argv : List (List Nat)) (init : Nat → Nat) (argc : Nat) : State :=
  loop env argv argc 1 (copyPrefix env (entry init))

/-- Lines 10-15: the buffer, the copy of the prefix, and the whole loop over
`argv[1] .. argv[argc-1]`, where `argc` is the length of `argv`. -/
def assemble (env : Env) (argv : List (List Nat)) (init : Nat → Nat) : State :=
  assembleUpTo env argv init argv.length

/-- The C string in `call_argv`. -/
def commandString (s : State) : List Nat := readStr s.call_argv.mem CLLEN 0

/-- Lines 17-23: the two blocks are zeroed, `si.cb` is set, and
`CreateProcess(NULL, call_argv, NULL, NULL, FALSE, 0, NULL, NULL, &si, &pi)` is
called; its result is dropped. -/
def spawnStep (env : Env) (s : State) : State :=
  if s.terminated then s
  else
    let si : STARTUPINFO := { cb := 0, rest := List.replicate (env.sizeofStartupInfo - 4) 0 }
    let si : STARTUPINFO := { si with cb := env.sizeofStartupInfo }
    let pi : List Nat := List.replicate env.sizeofProcessInformation 0
    let req : SpawnRequest :=
      { applicationName := none, commandLine := commandString s,
        processAttributes := none, threadAttributes := none,
        inheritHandles := false, creationFlags := 0,
        environment := none, currentDirectory := none,
        startupInfo := si, processInformation := pi }
    let ok := env.spawn req
    { s with calls := s.calls ++ [Call.memset, Call.memset, Call.createProcess req ok] }

/-- Outcome of a run: the value returned by `main` (`none` when the process
was terminated before `main` returned) and the final state. -/
structure Result where
  exit : Option Int
  final : State

/-- The function `int main(int argc, char *argv[])`, with `argc` the length of
`argv`. -/
def main (env : Env) (argv : List (List Nat)) (init : Nat → Nat) : Result :=
  let s := spawnStep env (assemble env argv init)
  { exit := if s.terminated then none else some 0, final := s }

end RunControl

namespace RunControl

/-! ## Specification-side definitions -/

/-- The command string the launcher is meant to build: the prefix followed,
for each forwarded argument in order, by one space and the argument. -/
def intended (args : List (List Nat)) : List Nat :=
  PREFIX ++ (args.map (fun a => SPACE ++ a)).flatten

/-- Length of the intended command string: the prefix plus, for each
argument, one space and the argument. -/
def assembledLength (args : List (List Nat)) : Nat :=
  PREFIX.length + (args.map (fun a => a.length + 1)).sum

/-- The strings appended by the loop, in order: a space and the argument for
every forwarded argument. -/
def pieces : List (List Nat) → List (List Nat)
  | [] => []
  | a :: as => SPACE :: a :: pieces as

/-- Well-formed C strings: no byte before the terminator is NUL. -/
def CStrings (args : List (List Nat)) : Prop := ∀ a ∈ args, ∀ c ∈ a, c ≠ 0

instance decidableCStrings (args : List (List Nat)) : Decidable (CStrings args) :=
  inferInstanceAs (Decidable (∀ a ∈ args, ∀ c ∈ a, c ≠ 0))

/-- Every bounds-checked string call of the run returned `0`. -/
def assemblyOk (s : State) : Prop :=
  ∀ c ∈ s.calls, c = Call.strcpy_s 0 ∨ c = Call.strcat_s 0

/-- A `CreateProcess` call. -/
def Call.isSpawn : Call → Bool
  | Call.createProcess _ _ => true
  | _ => false

/-- The appends of the loop, one `strcat_s` per piece. -/
def catAll (env : Env) (ps : List (List Nat)) (s : State) : State :=
  ps.foldl (fun s p => crtCall env Call.strcat_s (fun b => strcat_s b CLLEN p) s) s

/-- The buffer has its `CLLEN` bytes, holds a NUL among them, and no store
went past its end. -/
def Safe (s : State) : Prop :=
  s.call_argv.mem.length = CLLEN ∧ (∃ i, i < CLLEN ∧ s.call_argv.mem.getD i 0 = 0) ∧
    ∀ j ∈ s.call_argv.written, j < CLLEN

/-- The run is alive and the buffer starts with the string `str` and its
terminator. -/
def Holds (s : State) (str : List Nat) : Prop :=
  s.terminated = false ∧ s.call_argv.mem.length = CLLEN ∧ (∀ c ∈ str, c ≠ 0) ∧
    ∃ rest, s.call_argv.mem = str ++ 0 :: rest

/-- The request `main` is meant to issue for the forwarded arguments `args`:
no application name, the assembled command line, no security attributes, no
handle inheritance, no creation flags, no environment block, no working
directory, a zeroed `STARTUPINFO` with its `cb` set, a zeroed
`PROCESS_INFORMATION`. -/
def expectedRequest (env : Env) (args : List (List Nat)) : SpawnRequest :=
  { applicationName := none, commandLine := intended args,
    processAttributes := none, threadAttributes := none,
    inheritHandles := false, creationFlags := 0,
    environment := none, currentDirectory := none,
    startupInfo :=
      { cb := env.sizeofStartupInfo, rest := List.replicate (env.sizeofStartupInfo - 4) 0 },
    processInformation := List.replicate env.sizeofProcessInformation 0 }

/-- A sample environment: default handler, process creation fails. -/
def sampleEnv : Env :=
  { handler := Handler.terminate, spawn := fun _ => false,
    sizeofStartupInfo := 104, sizeofProcessInformation := 24 }

/-- A sample invocation `run-control.exe --port 8080`. -/
def sampleArgv : List (List Nat) := [bytes "run-control.exe", bytes "--port", bytes "8080"]

/-- The sample environment with a handler that returns to the caller. -/
def resumeEnv : Env := { sampleEnv with handler := Handler.resume }

/-- An invocation whose first argument of 4054 letters `a` fills the buffer
to its last usable byte, followed by a second argument. -/
def fullThenMore : List (List Nat) :=
  [bytes "run-control.exe", List.replicate 4054 97, bytes "python\\python.exe"]

/-- An invocation with one argument of `n` letters `a`. -/
def longArgv (n : Nat) : List (List Nat) := [bytes "run-control.exe", List.replicate n 97]

/-! ## Memory lemmas -/

theorem getD_at (pre rest : List Nat) (c : Nat) :
    (pre ++ c :: rest).getD pre.length 0 = c := by
  rw [List.getD_append_right _ _ _ _ (le_refl _)]
  simp

theorem set_at (pre old : List Nat) (v : Nat) :
    (pre ++ old).set pre.length v = pre ++ old.set 0 v := by
  simp [List.set_append]

theorem scan_sum (m : List Nat) : ∀ (a p : Nat), (scan m a p).1 + (scan m a p).2 = p + a := by
  intro a
  induction a with
  | zero => intro p; simp [scan]
  | succ a ih =>
    intro p
    unfold scan
    split
    · rfl
    · have := ih (p + 1)
      omega

theorem scan_str (str : List Nat) : ∀ (pre rest : List Nat) (a : Nat),
    (∀ c ∈ str, c ≠ 0) → str.length < a →
    scan (pre ++ str ++ 0 :: rest) a pre.length = (pre.length + str.length, a - str.length) := by
  induction str with
  | nil =>
    intro pre rest a _ ha
    obtain ⟨a, rfl⟩ : ∃ k, a = k + 1 := ⟨a - 1, by simp at ha; omega⟩
    have hm : pre ++ [] ++ 0 :: rest = pre ++ 0 :: rest := by simp
    unfold scan
    rw [hm, getD_at]
    simp
  | cons c cs ih =>
    intro pre rest a hnz ha
    simp only [List.length_cons] at ha
    obtain ⟨a, rfl⟩ : ∃ k, a = k + 1 := ⟨a - 1, by omega⟩
    have hc : c ≠ 0 := hnz c (List.mem_cons_self _ _)
    have hm : pre ++ c :: cs ++ 0 :: rest = pre ++ c :: (cs ++ 0 :: rest) := by simp
    unfold scan
    rw [hm, getD_at, if_neg hc]
    have h2 : pre ++ c :: (cs ++ 0 :: rest) = (pre ++ [c]) ++ cs ++ 0 :: rest := by simp
    have h3 := ih (pre ++ [c]) rest a (fun x hx => hnz x (List.mem_cons_of_mem _ hx)) (by omega)
    simp only [List.length_append, List.length_singleton] at h3
    rw [h2, h3]
    simp only [List.length_cons, Prod.mk.injEq]
    omega

theorem readStr_str (str : List Nat) : ∀ (pre rest : List Nat) (n : Nat),
    (∀ c ∈ str, c ≠ 0) → str.length < n →
    readStr (pre ++ str ++ 0 :: rest) n pre.length = str := by
  induction str with
  | nil =>
    intro pre rest n _ hn
    obtain ⟨n, rfl⟩ : ∃ k, n = k + 1 := ⟨n - 1, by simp at hn; omega⟩
    have hm : pre ++ [] ++ 0 :: rest = pre ++ 0 :: rest := by simp
    unfold readStr
    rw [hm, getD_at]
    simp
  | cons c cs ih =>
    intro pre rest n hnz hn
    simp only [List.length_cons] at hn
    obtain ⟨n, rfl⟩ : ∃ k, n = k + 1 := ⟨n - 1, by omega⟩
    have hc : c ≠ 0 := hnz c (List.mem_cons_self _ _)
    have hm : pre ++ c :: cs ++ 0 :: rest = pre ++ c :: (cs ++ 0 :: rest) := by simp
    unfold readStr
    rw [hm, getD_at, if_neg hc]
    have h2 : pre ++ c :: (cs ++ 0 :: rest) = (pre ++ [c]) ++ cs ++ 0 :: rest := by simp
    have h3 := ih (pre ++ [c]) rest n (fun x hx => hnz x (List.mem_cons_of_mem _ hx)) (by omega)
    simp only [List.length_append, List.length_singleton] at h3
    rw [h2, h3]

end RunControl

namespace RunControl

/-! ## The copy loop -/

theorem copy_length (src : List Nat) : ∀ (b : Buf) (p a : Nat),
    (copy b src p a).1.mem.length = b.mem.length := by
  induction src with
  | nil => intro b p a; simp [copy, Buf.store]
  | cons c cs ih =>
    intro b p a
    unfold copy
    split
    · simp [Buf.store]
    · split
      · simp [Buf.store]
      · rw [ih]; simp [Buf.store]

theorem copy_written (src : List Nat) : ∀ (b : Buf) (p a : Nat), 0 < a →
    ∀ j ∈ (copy b src p a).1.written, j ∈ b.written ∨ (p ≤ j ∧ j < p + a) := by
  induction src with
  | nil =>
    intro b p a ha j hj
    simp only [copy, Buf.store, List.mem_append, List.mem_singleton] at hj
    rcases hj with hj | hj
    · exact Or.inl hj
    · exact Or.inr ⟨by omega, by omega⟩
  | cons c cs ih =>
    intro b p a ha j hj
    unfold copy at hj
    split at hj
    · simp only [Buf.store, List.mem_append, List.mem_singleton] at hj
      rcases hj with hj | hj
      · exact Or.inl hj
      · exact Or.inr ⟨by omega, by omega⟩
    · split at hj
      · simp only [Buf.store, List.mem_append, List.mem_singleton] at hj
        rcases hj with hj | hj
        · exact Or.inl hj
        · exact Or.inr ⟨by omega, by omega⟩
      · have h := ih (b.store p c) (p + 1) (a - 1) (by omega) j hj
        simp only [Buf.store, List.mem_append, List.mem_singleton] at h
        rcases h with (h | h) | h
        · exact Or.inl h
        · exact Or.inr ⟨by omega, by omega⟩
        · exact Or.inr ⟨by omega, by omega⟩

theorem getD_set_self (m : List Nat) (p v : Nat) (hp : p < m.length) :
    (m.set p v).getD p 0 = v := by
  simp [List.getD_eq_getElem?_getD, List.getElem?_set, hp]

theorem copy_terminated (src : List Nat) : ∀ (b : Buf) (p a : Nat), 0 < a →
    p + a ≤ b.mem.length → (copy b src p a).2 ≠ 0 →
    ∃ i, i < p + a ∧ (copy b src p a).1.mem.getD i 0 = 0 := by
  induction src with
  | nil =>
    intro b p a ha hp _
    exact ⟨p, by omega, by simp only [copy, Buf.store]; exact getD_set_self _ _ _ (by omega)⟩
  | cons c cs ih =>
    intro b p a ha hp hne
    unfold copy at hne ⊢
    split
    · exact ⟨p, by omega, by simp only [Buf.store]; exact getD_set_self _ _ _ (by omega)⟩
    · rename_i hc
      rw [if_neg hc] at hne
      split
      · rename_i h1
        rw [if_pos h1] at hne
        exact absurd rfl hne
      · rename_i h1
        rw [if_neg h1] at hne
        have hlen : (b.store p c).mem.length = b.mem.length := by simp [Buf.store]
        obtain ⟨i, hi, hz⟩ := ih (b.store p c) (p + 1) (a - 1) (by omega) (by omega) hne
        exact ⟨i, by omega, hz⟩

theorem copy_overflow (src : List Nat) : ∀ (b : Buf) (p a : Nat), (∀ c ∈ src, c ≠ 0) →
    0 < a → a ≤ src.length → (copy b src p a).2 = 0 := by
  induction src with
  | nil => intro b p a _ ha hle; simp at hle; omega
  | cons c cs ih =>
    intro b p a hnz ha hle
    have hc : c ≠ 0 := hnz c (List.mem_cons_self _ _)
    simp only [List.length_cons] at hle
    unfold copy
    rw [if_neg hc]
    split
    · rfl
    · exact ih _ _ _ (fun x hx => hnz x (List.mem_cons_of_mem _ hx)) (by omega) (by omega)

theorem copy_fits (src : List Nat) : ∀ (b : Buf) (pre old : List Nat) (a : Nat),
    (∀ c ∈ src, c ≠ 0) → src.length < a → a ≤ old.length → b.mem = pre ++ old →
    (copy b src pre.length a).2 = a - src.length ∧
    (copy b src pre.length a).1.mem = pre ++ src ++ 0 :: old.drop (src.length + 1) := by
  induction src with
  | nil =>
    intro b pre old a _ _ hold hm
    cases old with
    | nil => simp at hold; omega
    | cons o os => simp [copy, Buf.store, hm, set_at]
  | cons c cs ih =>
    intro b pre old a hnz ha hold hm
    have hc : c ≠ 0 := hnz c (List.mem_cons_self _ _)
    simp only [List.length_cons] at ha
    cases old with
    | nil => simp at hold; omega
    | cons o os =>
      simp only [List.length_cons] at hold
      unfold copy
      rw [if_neg hc, if_neg (by omega)]
      have hm2 : (b.store pre.length c).mem = (pre ++ [c]) ++ os := by
        simp [Buf.store, hm, set_at]
      have h := ih (b.store pre.length c) (pre ++ [c]) os (a - 1)
        (fun x hx => hnz x (List.mem_cons_of_mem _ hx)) (by omega) (by omega) hm2
      simp only [List.length_append, List.length_singleton] at h
      refine ⟨by rw [h.1]; simp only [List.length_cons]; omega, ?_⟩
      rw [h.2]
      simp

end RunControl

namespace RunControl

/-! ## The bounds-checked string functions -/

theorem store_zero_safe (b : Buf) (size : Nat) (hs : 0 < size) (hl : b.mem.length = size) :
    (b.store 0 0).mem.length = size ∧
    (∃ i, i < size ∧ (b.store 0 0).mem.getD i 0 = 0) ∧
    (∀ j ∈ (b.store 0 0).written, j ∈ b.written ∨ j < size) := by
  refine ⟨by simp [Buf.store, hl], ⟨0, hs, ?_⟩, ?_⟩
  · simp only [Buf.store]
    exact getD_set_self _ _ _ (by omega)
  · intro j hj
    simp only [Buf.store, List.mem_append, List.mem_singleton] at hj
    rcases hj with hj | hj
    · exact Or.inl hj
    · exact Or.inr (by omega)

theorem copy_safe (b : Buf) (size p a : Nat) (src : List Nat) (ha : 0 < a)
    (hpa : p + a = size) (hl : b.mem.length = size) :
    let r := copy b src p a
    (if r.2 = 0 then r.1.store 0 0 else r.1).mem.length = size ∧
    (∃ i, i < size ∧ (if r.2 = 0 then r.1.store 0 0 else r.1).mem.getD i 0 = 0) ∧
    (∀ j ∈ (if r.2 = 0 then r.1.store 0 0 else r.1).written, j ∈ b.written ∨ j < size) := by
  intro r
  have hlen : r.1.mem.length = size := by rw [copy_length]; exact hl
  have hw : ∀ j ∈ r.1.written, j ∈ b.written ∨ j < size := by
    intro j hj
    rcases copy_written src b p a ha j hj with h | h
    · exact Or.inl h
    · exact Or.inr (by omega)
  by_cases h0 : r.2 = 0
  · rw [if_pos h0]
    obtain ⟨h1, h2, h3⟩ := store_zero_safe r.1 size (by omega) hlen
    refine ⟨h1, h2, ?_⟩
    intro j hj
    rcases h3 j hj with h | h
    · exact hw j h
    · exact Or.inr h
  · rw [if_neg h0]
    obtain ⟨i, hi, hz⟩ := copy_terminated src b p a ha (by omega) h0
    exact ⟨hlen, ⟨i, by omega, hz⟩, hw⟩

theorem strcpy_s_safe (b : Buf) (size : Nat) (src : List Nat) (hs : 0 < size)
    (hl : b.mem.length = size) :
    (strcpy_s b size src).2.mem.length = size ∧
    (∃ i, i < size ∧ (strcpy_s b size src).2.mem.getD i 0 = 0) ∧
    (∀ j ∈ (strcpy_s b size src).2.written, j ∈ b.written ∨ j < size) := by
  have h := copy_safe b size 0 size src hs (by omega) hl
  simp only [strcpy_s, if_neg (Nat.pos_iff_ne_zero.mp hs)]
  by_cases h0 : (copy b src 0 size).2 = 0
  · simp only [h0, if_true] at h ⊢
    exact h
  · simp only [h0, if_false] at h ⊢
    exact h

theorem strcat_s_safe (b : Buf) (size : Nat) (src : List Nat) (hs : 0 < size)
    (hl : b.mem.length = size) :
    (strcat_s b size src).2.mem.length = size ∧
    (∃ i, i < size ∧ (strcat_s b size src).2.mem.getD i 0 = 0) ∧
    (∀ j ∈ (strcat_s b size src).2.written, j ∈ b.written ∨ j < size) := by
  have hsum := scan_sum b.mem size 0
  simp only [strcat_s, if_neg (Nat.pos_iff_ne_zero.mp hs)]
  by_cases h1 : (scan b.mem size 0).2 = 0
  · simp only [h1, if_true]
    exact store_zero_safe b size hs hl
  · have h := copy_safe b size (scan b.mem size 0).1 (scan b.mem size 0).2 src
      (by omega) (by omega) hl
    simp only [h1, if_false]
    by_cases h0 : (copy b src (scan b.mem size 0).1 (scan b.mem size 0).2).2 = 0
    · simp only [h0, if_true] at h ⊢
      exact h
    · simp only [h0, if_false] at h ⊢
      exact h

theorem strcpy_s_fits (b : Buf) (size : Nat) (src : List Nat) (hl : b.mem.length = size)
    (hnz : ∀ c ∈ src, c ≠ 0) (hfit : src.length < size) :
    (strcpy_s b size src).1 = 0 ∧ ∃ rest, (strcpy_s b size src).2.mem = src ++ 0 :: rest := by
  have h := copy_fits src b [] b.mem size hnz hfit (by omega) (by simp)
  simp only [List.length_nil, List.nil_append] at h
  have h2 : (copy b src 0 size).2 ≠ 0 := by rw [h.1]; omega
  simp only [strcpy_s, if_neg (show size ≠ 0 by omega), if_neg h2]
  exact ⟨trivial, _, h.2⟩

theorem strcat_s_fits (b : Buf) (size : Nat) (str rest src : List Nat)
    (hm : b.mem = str ++ 0 :: rest) (hl : b.mem.length = size)
    (hstr : ∀ c ∈ str, c ≠ 0) (hnz : ∀ c ∈ src, c ≠ 0)
    (hfit : str.length + src.length < size) :
    (strcat_s b size src).1 = 0 ∧
    ∃ rest2, (strcat_s b size src).2.mem = (str ++ src) ++ 0 :: rest2 := by
  have hscan := scan_str str [] rest size hstr (by omega)
  simp only [List.length_nil, List.nil_append, Nat.zero_add] at hscan
  rw [← hm] at hscan
  have hlen : (0 :: rest).length = size - str.length := by
    have := congrArg List.length hm
    simp only [List.length_append] at this
    omega
  have h := copy_fits src b str (0 :: rest) (size - str.length) hnz (by omega) (by omega) hm
  have h2 : (copy b src str.length (size - str.length)).2 ≠ 0 := by rw [h.1]; omega
  simp only [strcat_s, if_neg (show size ≠ 0 by omega), hscan,
    if_neg (show size - str.length ≠ 0 by omega), if_neg h2]
  exact ⟨trivial, _, h.2⟩

theorem strcat_s_overflow (b : Buf) (size : Nat) (str rest src : List Nat)
    (hm : b.mem = str ++ 0 :: rest) (hl : b.mem.length = size)
    (hstr : ∀ c ∈ str, c ≠ 0) (hnz : ∀ c ∈ src, c ≠ 0)
    (hover : size ≤ str.length + src.length) :
    (strcat_s b size src).1 = ERANGE ∧
    ∃ rest2, (strcat_s b size src).2.mem = 0 :: rest2 := by
  have hlen : str.length < size := by
    have := congrArg List.length hm
    simp only [List.length_append, List.length_cons] at this
    omega
  have hscan := scan_str str [] rest size hstr hlen
  simp only [List.length_nil, List.nil_append, Nat.zero_add] at hscan
  rw [← hm] at hscan
  have h2 := copy_overflow src b str.length (size - str.length) hnz (by omega) (by omega)
  simp only [strcat_s, if_neg (show size ≠ 0 by omega), hscan,
    if_neg (show size - str.length ≠ 0 by omega), h2, if_true]
  refine ⟨trivial, ?_⟩
  have h3 : (copy b src str.length (size - str.length)).1.mem.length = size := by
    rw [copy_length]; exact hl
  cases hc : (copy b src str.length (size - str.length)).1.mem with
  | nil => rw [hc] at h3; simp at h3; omega
  | cons x xs => exact ⟨xs, by simp [Buf.store, hc]⟩

end RunControl

namespace RunControl

/-! ## Runs -/

theorem crtCall_terminated (env : Env) (mk : Nat → Call) (f : Buf → Nat × Buf) (s : State)
    (h : s.terminated = true) : crtCall env mk f s = s := by
  simp [crtCall, h]

theorem crtCall_alive (env : Env) (mk : Nat → Call) (f : Buf → Nat × Buf) (s : State)
    (h : s.terminated = false) :
    crtCall env mk f s =
      { call_argv := (f s.call_argv).2, calls := s.calls ++ [mk (f s.call_argv).1],
        terminated := decide ((f s.call_argv).1 ≠ 0) && decide (env.handler = Handler.terminate) } := by
  simp [crtCall, h]

theorem catAll_terminated (env : Env) (ps : List (List Nat)) : ∀ (s : State),
    s.terminated = true → catAll env ps s = s := by
  induction ps with
  | nil => intro s _; rfl
  | cons p ps ih =>
    intro s h
    simp only [catAll, List.foldl_cons]
    rw [crtCall_terminated env _ _ s h]
    exact ih s h

theorem catAll_nil (env : Env) (s : State) : catAll env [] s = s := rfl

theorem catAll_cons (env : Env) (p : List Nat) (ps : List (List Nat)) (s : State) :
    catAll env (p :: ps) s =
      catAll env ps (crtCall env Call.strcat_s (fun b => strcat_s b CLLEN p) s) := rfl

theorem catAll_append (env : Env) (ps qs : List (List Nat)) (s : State) :
    catAll env (ps ++ qs) s = catAll env qs (catAll env ps s) := by
  simp [catAll, List.foldl_append]

theorem crtCall_strcat_safe (env : Env) (p : List Nat) (s : State) (h : Safe s) :
    Safe (crtCall env Call.strcat_s (fun b => strcat_s b CLLEN p) s) := by
  unfold crtCall
  split
  · exact h
  · obtain ⟨hl, _, hw⟩ := h
    obtain ⟨h1, h2, h3⟩ := strcat_s_safe s.call_argv CLLEN p (by decide) hl
    refine ⟨h1, h2, ?_⟩
    intro j hj
    rcases h3 j hj with h | h
    · exact hw j h
    · exact h

theorem catAll_safe (env : Env) (ps : List (List Nat)) : ∀ (s : State),
    Safe s → Safe (catAll env ps s) := by
  induction ps with
  | nil => intro s h; exact h
  | cons p ps ih =>
    intro s h
    rw [catAll_cons]
    exact ih _ (crtCall_strcat_safe env p s h)

theorem entry_length (init : Nat → Nat) : (entry init).call_argv.mem.length = CLLEN := by
  simp [entry]

theorem copyPrefix_safe (env : Env) (init : Nat → Nat) : Safe (copyPrefix env (entry init)) := by
  obtain ⟨h1, h2, h3⟩ := strcpy_s_safe (entry init).call_argv CLLEN PREFIX (by decide) (entry_length init)
  have ht : (entry init).terminated = false := rfl
  simp only [copyPrefix, crtCall, ht]
  refine ⟨h1, h2, ?_⟩
  intro j hj
  rcases h3 j hj with h | h
  · simp [entry] at h
  · exact h

theorem PREFIX_length : PREFIX.length = 40 := by decide

theorem PREFIX_nonzero : ∀ c ∈ PREFIX, c ≠ 0 := by decide

theorem SPACE_nonzero : ∀ c ∈ SPACE, c ≠ 0 := by decide

theorem copyPrefix_holds (env : Env) (init : Nat → Nat) :
    Holds (copyPrefix env (entry init)) PREFIX ∧
    (copyPrefix env (entry init)).calls = [Call.strcpy_s 0] := by
  obtain ⟨h1, rest, h2⟩ := strcpy_s_fits (entry init).call_argv CLLEN PREFIX (entry_length init)
    PREFIX_nonzero (by decide)
  have hs := (copyPrefix_safe env init).1
  have ht : (entry init).terminated = false := rfl
  simp only [copyPrefix] at hs ⊢
  rw [crtCall_alive env _ _ _ ht] at hs ⊢
  refine ⟨⟨?_, hs, PREFIX_nonzero, rest, h2⟩, ?_⟩
  · simp [h1]
  · simp only [h1]
    rfl

theorem catAll_fits (env : Env) (ps : List (List Nat)) : ∀ (s : State) (str : List Nat),
    Holds s str → (∀ p ∈ ps, ∀ c ∈ p, c ≠ 0) → str.length + ps.flatten.length < CLLEN →
    Holds (catAll env ps s) (str ++ ps.flatten) ∧
    (catAll env ps s).calls = s.calls ++ List.replicate ps.length (Call.strcat_s 0) := by
  induction ps with
  | nil => intro s str h _ _; simpa [catAll] using h
  | cons p ps ih =>
    intro s str h hnz hfit
    obtain ⟨ht, hl, hstr, rest, hm⟩ := h
    simp only [List.flatten_cons, List.length_append] at hfit
    have hp : ∀ c ∈ p, c ≠ 0 := hnz p (List.mem_cons_self _ _)
    obtain ⟨h1, rest2, h2⟩ := strcat_s_fits s.call_argv CLLEN str rest p hm hl hstr hp (by omega)
    have hl2 := (strcat_s_safe s.call_argv CLLEN p (by decide) hl).1
    have hstep : Holds (crtCall env Call.strcat_s (fun b => strcat_s b CLLEN p) s) (str ++ p) := by
      simp only [crtCall, ht]
      refine ⟨by simp [h1], hl2, ?_, rest2, h2⟩
      intro c hc
      rcases List.mem_append.mp hc with hc | hc
      · exact hstr c hc
      · exact hp c hc
    have hcalls : (crtCall env Call.strcat_s (fun b => strcat_s b CLLEN p) s).calls =
        s.calls ++ [Call.strcat_s 0] := by
      simp [crtCall, ht, h1]
    obtain ⟨ih1, ih2⟩ := ih _ (str ++ p) hstep
      (fun q hq => hnz q (List.mem_cons_of_mem _ hq))
      (by simp only [List.length_append]; omega)
    rw [catAll_cons]
    refine ⟨by simpa [List.append_assoc] using ih1, ?_⟩
    rw [ih2, hcalls]
    simp [List.replicate_succ]

theorem catAll_calls (env : Env) (ps : List (List Nat)) : ∀ (s : State),
    ∃ tail, (catAll env ps s).calls = s.calls ++ tail := by
  induction ps with
  | nil => intro s; exact ⟨[], by simp [catAll]⟩
  | cons p ps ih =>
    intro s
    rw [catAll_cons]
    obtain ⟨tail, ht⟩ := ih (crtCall env Call.strcat_s (fun b => strcat_s b CLLEN p) s)
    rw [ht]
    unfold crtCall
    split
    · exact ⟨tail, rfl⟩
    · exact ⟨Call.strcat_s (strcat_s s.call_argv CLLEN p).1 :: tail, by simp⟩

end RunControl

namespace RunControl

theorem holds_length (s : State) (str : List Nat) (h : Holds s str) : str.length < CLLEN := by
  obtain ⟨_, hl, _, rest, hm⟩ := h
  have := congrArg List.length hm
  simp only [List.length_append, List.length_cons] at this
  omega

theorem crtCall_fits (env : Env) (p : List Nat) (s : State) (str : List Nat)
    (h : Holds s str) (hp : ∀ c ∈ p, c ≠ 0) (hfit : str.length + p.length < CLLEN) :
    Holds (crtCall env Call.strcat_s (fun b => strcat_s b CLLEN p) s) (str ++ p) ∧
    (crtCall env Call.strcat_s (fun b => strcat_s b CLLEN p) s).calls =
      s.calls ++ [Call.strcat_s 0] := by
  have h0 := catAll_fits env [p] s str h (by simpa using hp) (by simpa using hfit)
  simpa [catAll] using h0

theorem crtCall_overflow (env : Env) (p : List Nat) (s : State) (str : List Nat)
    (h : Holds s str) (hp : ∀ c ∈ p, c ≠ 0) (hover : CLLEN ≤ str.length + p.length) :
    (crtCall env Call.strcat_s (fun b => strcat_s b CLLEN p) s).calls =
      s.calls ++ [Call.strcat_s ERANGE] ∧
    (crtCall env Call.strcat_s (fun b => strcat_s b CLLEN p) s).terminated =
      decide (env.handler = Handler.terminate) := by
  obtain ⟨ht, hl, hstr, rest, hm⟩ := h
  have h1 := (strcat_s_overflow s.call_argv CLLEN str rest p hm hl hstr hp hover).1
  rw [crtCall_alive env _ _ _ ht]
  simp only [h1]
  exact ⟨trivial, by simp [ERANGE]⟩

theorem crtCall_overflow_resume (env : Env) (p : List Nat) (s : State) (str : List Nat)
    (hh : env.handler = Handler.resume)
    (h : Holds s str) (hp : ∀ c ∈ p, c ≠ 0) (hover : CLLEN ≤ str.length + p.length) :
    Holds (crtCall env Call.strcat_s (fun b => strcat_s b CLLEN p) s) [] := by
  obtain ⟨ht, hl, hstr, rest, hm⟩ := h
  obtain ⟨_, rest2, h2⟩ := strcat_s_overflow s.call_argv CLLEN str rest p hm hl hstr hp hover
  have hl2 := (strcat_s_safe s.call_argv CLLEN p (by decide) hl).1
  rw [crtCall_alive env _ _ _ ht]
  exact ⟨by simp [hh], hl2, by simp, rest2, by simpa using h2⟩

theorem catAll_overflow (env : Env) (ps : List (List Nat)) : ∀ (s : State) (str : List Nat),
    Holds s str → (∀ p ∈ ps, ∀ c ∈ p, c ≠ 0) → CLLEN ≤ str.length + ps.flatten.length →
    ∃ k tail, k < ps.length ∧
      str.length + (ps.take k).flatten.length < CLLEN ∧
      CLLEN ≤ str.length + (ps.take (k + 1)).flatten.length ∧
      (catAll env ps s).calls =
        s.calls ++ List.replicate k (Call.strcat_s 0) ++ Call.strcat_s ERANGE :: tail ∧
      (env.handler = Handler.terminate → tail = [] ∧ (catAll env ps s).terminated = true) := by
  induction ps with
  | nil =>
    intro s str h _ hover
    have := holds_length s str h
    simp at hover
    omega
  | cons p ps ih =>
    intro s str h hnz hover
    have hp : ∀ c ∈ p, c ≠ 0 := hnz p (List.mem_cons_self _ _)
    have hlen := holds_length s str h
    simp only [List.flatten_cons, List.length_append] at hover
    rw [catAll_cons]
    by_cases hfit : str.length + p.length < CLLEN
    · obtain ⟨hstep, hcalls⟩ := crtCall_fits env p s str h hp hfit
      obtain ⟨k, tail, hk, h1, h2, h3, h4⟩ := ih _ (str ++ p) hstep
        (fun q hq => hnz q (List.mem_cons_of_mem _ hq))
        (by simp only [List.length_append]; omega)
      simp only [List.length_append] at h1 h2
      refine ⟨k + 1, tail, by simp only [List.length_cons]; omega, ?_, ?_, ?_, h4⟩
      · simp only [List.take_succ_cons, List.flatten_cons, List.length_append]; omega
      · simp only [List.take_succ_cons, List.flatten_cons, List.length_append]; omega
      · rw [h3, hcalls]
        simp [List.replicate_succ]
    · obtain ⟨hcalls, hterm⟩ := crtCall_overflow env p s str h hp (by omega)
      by_cases hh : env.handler = Handler.terminate
      · have ht : (crtCall env Call.strcat_s (fun b => strcat_s b CLLEN p) s).terminated = true := by
          rw [hterm]; simp [hh]
        refine ⟨0, [], by simp, by simpa using hlen, ?_, ?_, fun _ => ⟨rfl, ?_⟩⟩
        · simp only [Nat.zero_add, List.take_succ_cons, List.take_zero, List.flatten_cons,
            List.flatten_nil, List.append_nil]
          omega
        · rw [catAll_terminated env ps _ ht, hcalls]
          simp
        · rw [catAll_terminated env ps _ ht]
          exact ht
      · obtain ⟨tail, htail⟩ := catAll_calls env ps
          (crtCall env Call.strcat_s (fun b => strcat_s b CLLEN p) s)
        refine ⟨0, tail, by simp, by simpa using hlen, ?_, ?_, fun h => absurd h hh⟩
        · simp only [Nat.zero_add, List.take_succ_cons, List.take_zero, List.flatten_cons,
            List.flatten_nil, List.append_nil]
          omega
        · rw [htail, hcalls]
          simp

/-! ## The loop and the pieces it appends -/

theorem getD_mid (pre rest : List (List Nat)) (a : List Nat) :
    (pre ++ a :: rest).getD pre.length [] = a := by
  rw [List.getD_append_right _ _ _ _ (le_refl _)]
  simp

theorem loop_eq_catAll (env : Env) : ∀ (k : Nat) (pre rest : List (List Nat)) (s : State),
    k ≤ rest.length →
    loop env (pre ++ rest) (pre.length + k) pre.length s =
      catAll env (pieces (rest.take k)) s := by
  intro k
  induction k with
  | zero =>
    intro pre rest s _
    rw [loop]
    simp [pieces, catAll]
  | succ k ih =>
    intro pre rest s hk
    cases rest with
    | nil => simp at hk
    | cons a rest =>
      simp only [List.length_cons] at hk
      have h := ih (pre ++ [a]) rest (body env (pre ++ a :: rest) pre.length s) (by omega)
      simp only [List.length_append, List.length_singleton, List.append_assoc,
        List.singleton_append] at h
      rw [loop, if_pos (by omega)]
      simp only [List.take_succ_cons, pieces, catAll_cons]
      rw [show pre.length + (k + 1) = pre.length + 1 + k by omega, h]
      simp only [body, getD_mid]

theorem assembleUpTo_eq (env : Env) (a0 : List Nat) (args : List (List Nat))
    (init : Nat → Nat) (k : Nat) (hk : k ≤ args.length) :
    assembleUpTo env (a0 :: args) init (k + 1) =
      catAll env (pieces (args.take k)) (copyPrefix env (entry init)) := by
  have h := loop_eq_catAll env k [a0] args (copyPrefix env (entry init)) hk
  simp only [List.length_singleton, List.singleton_append] at h
  rw [assembleUpTo, show k + 1 = 1 + k by omega]
  exact h

theorem assemble_eq (env : Env) (argv : List (List Nat)) (init : Nat → Nat) :
    assemble env argv init = catAll env (pieces argv.tail) (copyPrefix env (entry init)) := by
  cases argv with
  | nil =>
    rw [assemble, assembleUpTo, loop]
    simp [pieces, catAll]
  | cons a0 args =>
    have h := assembleUpTo_eq env a0 args init args.length (le_refl _)
    rw [List.take_of_length_le (le_refl _)] at h
    exact h

theorem pieces_flatten (args : List (List Nat)) :
    (pieces args).flatten = (args.map (fun a => SPACE ++ a)).flatten := by
  induction args with
  | nil => rfl
  | cons a as ih => simp [pieces, ih]

theorem pieces_length (args : List (List Nat)) : (pieces args).length = 2 * args.length := by
  induction args with
  | nil => rfl
  | cons a as ih => simp only [pieces, List.length_cons, ih]; omega

theorem pieces_nonzero (args : List (List Nat)) (h : CStrings args) :
    ∀ p ∈ pieces args, ∀ c ∈ p, c ≠ 0 := by
  induction args with
  | nil => intro p hp; simp [pieces] at hp
  | cons a as ih =>
    intro p hp
    simp only [pieces, List.mem_cons] at hp
    rcases hp with rfl | rfl | hp
    · exact SPACE_nonzero
    · exact h p (List.mem_cons_self _ _)
    · exact ih (fun b hb => h b (List.mem_cons_of_mem _ hb)) p hp

theorem intended_length (args : List (List Nat)) :
    (intended args).length = assembledLength args := by
  induction args with
  | nil => simp [intended, assembledLength]
  | cons a as ih =>
    simp only [intended, assembledLength, List.map_cons, List.flatten_cons, List.length_append,
      List.sum_cons] at ih ⊢
    have : SPACE.length = 1 := rfl
    omega

theorem pieces_flatten_length (args : List (List Nat)) :
    PREFIX.length + (pieces args).flatten.length = assembledLength args := by
  rw [← intended_length, intended, pieces_flatten, List.length_append]

end RunControl

namespace RunControl

/-! ## Facts about whole runs -/

theorem readStr_terminated (m : List Nat) : ∀ (n p : Nat),
    (∃ i, p ≤ i ∧ i < p + n ∧ m.getD i 0 = 0) →
    (readStr m n p).length < n ∧ m.getD (p + (readStr m n p).length) 0 = 0 := by
  intro n
  induction n with
  | zero => intro p ⟨i, h1, h2, _⟩; omega
  | succ n ih =>
    intro p ⟨i, h1, h2, h3⟩
    unfold readStr
    split
    · rename_i hz
      exact ⟨by simp, by simpa using hz⟩
    · rename_i hz
      have hne : i ≠ p := fun h => hz (h ▸ h3)
      obtain ⟨ih1, ih2⟩ := ih (p + 1) ⟨i, by omega, by omega, h3⟩
      refine ⟨by simp only [List.length_cons]; omega, ?_⟩
      simp only [List.length_cons]
      rw [← ih2]
      congr 1
      omega

theorem safe_string (s : State) (h : Safe s) :
    (commandString s).length ≤ 4095 ∧ s.call_argv.mem.getD (commandString s).length 0 = 0 := by
  obtain ⟨_, ⟨i, hi, hz⟩, _⟩ := h
  have := readStr_terminated s.call_argv.mem CLLEN 0 ⟨i, by omega, by omega, hz⟩
  simp only [Nat.zero_add] at this
  have hc : CLLEN = 4096 := rfl
  exact ⟨by unfold commandString; omega, this.2⟩

theorem commandString_holds (s : State) (str : List Nat) (h : Holds s str) :
    commandString s = str := by
  have hlen := holds_length s str h
  obtain ⟨_, _, hstr, rest, hm⟩ := h
  have := readStr_str str [] rest CLLEN hstr hlen
  simp only [List.nil_append, List.length_nil] at this
  rw [commandString, hm]
  exact this

theorem loop_safe (env : Env) (argv : List (List Nat)) (argc : Nat) :
    ∀ (n i : Nat) (s : State), argc - i = n → Safe s → Safe (loop env argv argc i s) := by
  intro n
  induction n with
  | zero =>
    intro i s hn h
    rw [loop, if_neg (by omega)]
    exact h
  | succ n ih =>
    intro i s hn h
    rw [loop, if_pos (by omega)]
    exact ih (i + 1) _ (by omega) (crtCall_strcat_safe env _ _ (crtCall_strcat_safe env _ _ h))

theorem assembleUpTo_safe (env : Env) (argv : List (List Nat)) (init : Nat → Nat)
    (argc : Nat) : Safe (assembleUpTo env argv init argc) :=
  loop_safe env argv argc (argc - 1) 1 _ rfl (copyPrefix_safe env init)

theorem assemble_fits (env : Env) (argv : List (List Nat)) (init : Nat → Nat)
    (hwf : CStrings argv.tail) (hfit : assembledLength argv.tail < CLLEN) :
    Holds (assemble env argv init) (intended argv.tail) ∧
    (assemble env argv init).calls =
      Call.strcpy_s 0 :: List.replicate (2 * argv.tail.length) (Call.strcat_s 0) := by
  obtain ⟨h0, hc0⟩ := copyPrefix_holds env init
  have hlen := pieces_flatten_length argv.tail
  obtain ⟨h1, h2⟩ := catAll_fits env (pieces argv.tail) _ PREFIX h0
    (pieces_nonzero _ hwf) (by omega)
  rw [assemble_eq]
  refine ⟨by rw [intended, ← pieces_flatten]; exact h1, ?_⟩
  rw [h2, hc0, pieces_length]
  rfl

theorem assemble_overflow (env : Env) (argv : List (List Nat)) (init : Nat → Nat)
    (hwf : CStrings argv.tail) (hover : CLLEN ≤ assembledLength argv.tail) :
    ∃ k tail, k < (pieces argv.tail).length ∧
      PREFIX.length + ((pieces argv.tail).take k).flatten.length < CLLEN ∧
      CLLEN ≤ PREFIX.length + ((pieces argv.tail).take (k + 1)).flatten.length ∧
      (assemble env argv init).calls =
        Call.strcpy_s 0 :: (List.replicate k (Call.strcat_s 0) ++ Call.strcat_s ERANGE :: tail) ∧
      (env.handler = Handler.terminate →
        tail = [] ∧ (assemble env argv init).terminated = true) := by
  obtain ⟨h0, hc0⟩ := copyPrefix_holds env init
  have hlen := pieces_flatten_length argv.tail
  obtain ⟨k, tail, h1, h2, h3, h4, h5⟩ := catAll_overflow env (pieces argv.tail) _ PREFIX h0
    (pieces_nonzero _ hwf) (by omega)
  rw [assemble_eq]
  refine ⟨k, tail, h1, h2, h3, ?_, h5⟩
  rw [h4, hc0]
  simp

theorem main_alive (env : Env) (argv : List (List Nat)) (init : Nat → Nat)
    (h : (assemble env argv init).terminated = false) :
    (main env argv init).exit = some 0 ∧
    (main env argv init).final.calls = (assemble env argv init).calls ++
      [Call.memset, Call.memset,
        Call.createProcess
          { applicationName := none, commandLine := commandString (assemble env argv init),
            processAttributes := none, threadAttributes := none,
            inheritHandles := false, creationFlags := 0,
            environment := none, currentDirectory := none,
            startupInfo :=
              { cb := env.sizeofStartupInfo,
                rest := List.replicate (env.sizeofStartupInfo - 4) 0 },
            processInformation := List.replicate env.sizeofProcessInformation 0 }
          (env.spawn
          { applicationName := none, commandLine := commandString (assemble env argv init),
            processAttributes := none, threadAttributes := none,
            inheritHandles := false, creationFlags := 0,
            environment := none, currentDirectory := none,
            startupInfo :=
              { cb := env.sizeofStartupInfo,
                rest := List.replicate (env.sizeofStartupInfo - 4) 0 },
            processInformation := List.replicate env.sizeofProcessInformation 0 })] := by
  simp [main, spawnStep, h]

theorem main_terminated (env : Env) (argv : List (List Nat)) (init : Nat → Nat)
    (h : (assemble env argv init).terminated = true) :
    (main env argv init).exit = none ∧
    (main env argv init).final = assemble env argv init := by
  simp [main, spawnStep, h]

theorem main_calls (env : Env) (argv : List (List Nat)) (init : Nat → Nat) :
    ∃ extra, (main env argv init).final.calls = (assemble env argv init).calls ++ extra := by
  simp only [main, spawnStep]
  split
  · exact ⟨[], by simp⟩
  · exact ⟨_, rfl⟩

theorem main_written (env : Env) (argv : List (List Nat)) (init : Nat → Nat) :
    (main env argv init).final.call_argv = (assemble env argv init).call_argv := by
  simp only [main, spawnStep]
  split <;> rfl

end RunControl

namespace RunControl

/-! ## The claims -/

/-- C1: for every argument list `argv[1..argc-1]` of C strings whose assembled
command and its terminator fit in the buffer, the command string built by
`main` is the fixed prefix followed, for each argument in input order, by one
space and that argument unchanged. -/
theorem command_is_joined_arguments (env : Env) (argv : List (List Nat)) (init : Nat → Nat)
    (hwf : CStrings argv.tail) (hfit : assembledLength argv.tail < CLLEN) :
    commandString (assemble env argv init) =
      PREFIX ++ (argv.tail.map (fun a => SPACE ++ a)).flatten :=
  commandString_holds _ _ (assemble_fits env argv init hwf hfit).1

/-- Witness of C1: `["--port", "8080"]` gives the prefix followed by
`" --port 8080"`. -/
theorem command_is_joined_arguments_witness :
    CStrings sampleArgv.tail ∧ assembledLength sampleArgv.tail < CLLEN ∧
    commandString (assemble sampleEnv sampleArgv (fun _ => 0)) =
      PREFIX ++ bytes " --port 8080" :=
  ⟨by decide, by decide,
    (command_is_joined_arguments sampleEnv sampleArgv (fun _ => 0) (by decide) (by decide)).trans
      (by decide)⟩

/-- C2: with no forwarded argument (`argc = 1`) the assembled command string
is exactly the literal `python\python.exe cam-control\control.py`, forty bytes
with nothing appended. -/
theorem no_arguments_command (env : Env) (a0 : List Nat) (init : Nat → Nat) :
    commandString (assemble env [a0] init) = bytes "python\\python.exe cam-control\\control.py" ∧
    (commandString (assemble env [a0] init)).length = 40 := by
  have h := commandString_holds _ _
    (assemble_fits env [a0] init (by simp [CStrings])
      (by simp [assembledLength, PREFIX_length, CLLEN])).1
  simp only [List.tail_cons, intended, List.map_nil, List.flatten_nil, List.append_nil] at h
  rw [h]
  exact ⟨rfl, PREFIX_length⟩

/-- C3: for every argument list whose assembled command fits in the buffer
and whatever `CreateProcess` answers, `main` returns `0`. -/
theorem main_returns_zero (env : Env) (argv : List (List Nat)) (init : Nat → Nat)
    (hwf : CStrings argv.tail) (hfit : assembledLength argv.tail < CLLEN) :
    ∀ answer : SpawnRequest → Bool,
      (main { env with spawn := answer } argv init).exit = some 0 := by
  intro answer
  exact (main_alive _ argv init (assemble_fits _ argv init hwf hfit).1.1).1

/-- Witness of C3 on `run-control.exe --port 8080`, process creation failing
or succeeding. -/
theorem main_returns_zero_witness :
    CStrings sampleArgv.tail ∧ assembledLength sampleArgv.tail < CLLEN ∧
    (main { sampleEnv with spawn := fun _ => false } sampleArgv (fun _ => 0)).exit = some 0 ∧
    (main { sampleEnv with spawn := fun _ => true } sampleArgv (fun _ => 0)).exit = some 0 :=
  ⟨by decide, by decide,
    main_returns_zero sampleEnv sampleArgv (fun _ => 0) (by decide) (by decide) (fun _ => false),
    main_returns_zero sampleEnv sampleArgv (fun _ => 0) (by decide) (by decide) (fun _ => true)⟩

end RunControl

namespace RunControl

theorem fits_ok (env : Env) (argv : List (List Nat)) (init : Nat → Nat)
    (hwf : CStrings argv.tail) (hfit : assembledLength argv.tail < CLLEN) :
    assemblyOk (assemble env argv init) := by
  intro c hc
  rw [(assemble_fits env argv init hwf hfit).2] at hc
  rcases List.mem_cons.mp hc with h | h
  · exact Or.inl h
  · exact Or.inr (List.eq_of_mem_replicate h)

theorem overflow_not_ok (env : Env) (argv : List (List Nat)) (init : Nat → Nat)
    (hwf : CStrings argv.tail) (hover : CLLEN ≤ assembledLength argv.tail) :
    ¬ assemblyOk (assemble env argv init) := by
  intro hok
  obtain ⟨k, tail, _, _, _, hcalls, _⟩ := assemble_overflow env argv init hwf hover
  have hmem : Call.strcat_s ERANGE ∈ (assemble env argv init).calls := by
    rw [hcalls]
    simp
  rcases hok _ hmem with h | h
  · cases h
  · injection h with h
    simp [ERANGE] at h

theorem longArgv_wf (n : Nat) : CStrings (longArgv n).tail := by
  intro a ha c hc
  simp only [longArgv, List.tail_cons, List.mem_singleton] at ha
  subst ha
  rw [List.eq_of_mem_replicate hc]
  decide

theorem longArgv_length (n : Nat) : assembledLength (longArgv n).tail = n + 41 := by
  simp [longArgv, assembledLength, PREFIX_length]
  omega

/-- C4 as stated fails: one argument of 4055 bytes makes an assembled length
of exactly 4096, within the stated limit, and the second `strcat_s` reports
`ERANGE`; the command is not assembled and `main` does not return. -/
theorem capacity_4096_counterexample :
    CStrings (longArgv 4055).tail ∧ assembledLength (longArgv 4055).tail ≤ 4096 ∧
    ¬ assemblyOk (assemble sampleEnv (longArgv 4055) (fun _ => 0)) ∧
    commandString (assemble sampleEnv (longArgv 4055) (fun _ => 0)) ≠
      intended (longArgv 4055).tail := by
  have hwf := longArgv_wf 4055
  have hlen := longArgv_length 4055
  refine ⟨hwf, by omega, ?_, ?_⟩
  · exact overflow_not_ok _ _ _ hwf (by rw [hlen]; decide)
  · intro h
    have h1 := (safe_string _ (assembleUpTo_safe sampleEnv (longArgv 4055) (fun _ => 0)
      (longArgv 4055).length)).1
    have h2 := congrArg List.length h
    rw [intended_length, hlen] at h2
    unfold assemble at h2
    omega

/-- C4, amended: for every argument list of C strings whose assembled command
length (prefix plus, for each argument, one space and the argument) does not
exceed 4095 characters, so that the command and its terminating NUL fit in the
`CLLEN = 4096` buffer, every `strcpy_s` and `strcat_s` call returns `0` and the
buffer holds the full command string. -/
theorem assembly_succeeds_within_4095 (env : Env) (argv : List (List Nat)) (init : Nat → Nat)
    (hwf : CStrings argv.tail) (hfit : assembledLength argv.tail ≤ 4095) :
    CLLEN = 4096 ∧ assemblyOk (assemble env argv init) ∧
    commandString (assemble env argv init) =
      PREFIX ++ (argv.tail.map (fun a => SPACE ++ a)).flatten := by
  have hc : CLLEN = 4096 := rfl
  have hfit2 : assembledLength argv.tail < CLLEN := by omega
  exact ⟨hc, fits_ok env argv init hwf hfit2,
    commandString_holds _ _ (assemble_fits env argv init hwf hfit2).1⟩

/-- Witness of the amended C4 at the largest length that fits: one argument of
4054 bytes, assembled length 4095. -/
theorem assembly_succeeds_within_4095_witness :
    CStrings (longArgv 4054).tail ∧ assembledLength (longArgv 4054).tail ≤ 4095 ∧
    (CLLEN = 4096 ∧ assemblyOk (assemble sampleEnv (longArgv 4054) (fun _ => 0)) ∧
      commandString (assemble sampleEnv (longArgv 4054) (fun _ => 0)) =
        PREFIX ++ ((longArgv 4054).tail.map (fun a => SPACE ++ a)).flatten) :=
  ⟨longArgv_wf 4054, by rw [longArgv_length],
    assembly_succeeds_within_4095 sampleEnv (longArgv 4054) (fun _ => 0) (longArgv_wf 4054)
      (by rw [longArgv_length])⟩

/-- C5: for every argument list of C strings whose assembled command and its
terminator do not fit in the buffer, the first append that does not fit makes
`strcat_s` report `ERANGE` after the earlier calls all returned `0`, no store
ever goes to an offset `≥ 4096` of `call_argv`, and, the C runtime's default
invalid-parameter handler being in force, the run ends there: no process
creation is requested and `main` does not return. -/
theorem oversized_command_fails_explicitly (env : Env) (argv : List (List Nat))
    (init : Nat → Nat) (hwf : CStrings argv.tail) (hover : CLLEN ≤ assembledLength argv.tail) :
    (∃ k tail, k < (pieces argv.tail).length ∧
      PREFIX.length + ((pieces argv.tail).take k).flatten.length < CLLEN ∧
      CLLEN ≤ PREFIX.length + ((pieces argv.tail).take (k + 1)).flatten.length ∧
      (main env argv init).final.calls =
        Call.strcpy_s 0 :: (List.replicate k (Call.strcat_s 0) ++ Call.strcat_s ERANGE :: tail) ∧
      (env.handler = Handler.terminate → tail = [])) ∧
    (∀ j ∈ (main env argv init).final.call_argv.written, j < 4096) ∧
    (env.handler = Handler.terminate →
      (main env argv init).exit = none ∧
      ∀ c ∈ (main env argv init).final.calls, Call.isSpawn c = false) := by
  obtain ⟨k, tail, h1, h2, h3, h4, h5⟩ := assemble_overflow env argv init hwf hover
  refine ⟨?_, ?_, ?_⟩
  · cases hb : (assemble env argv init).terminated with
    | true =>
      refine ⟨k, tail, h1, h2, h3, ?_, fun hh => (h5 hh).1⟩
      rw [(main_terminated env argv init hb).2]
      exact h4
    | false =>
      have hh : env.handler ≠ Handler.terminate := by
        intro hh
        rw [(h5 hh).2] at hb
        cases hb
      obtain ⟨extra, he⟩ := main_calls env argv init
      refine ⟨k, tail ++ extra, h1, h2, h3, ?_, fun h => absurd h hh⟩
      rw [he, h4]
      simp
  · rw [main_written]
    exact (assembleUpTo_safe env argv init argv.length).2.2
  · intro hh
    obtain ⟨ht, hterm⟩ := h5 hh
    obtain ⟨hx, hf⟩ := main_terminated env argv init hterm
    refine ⟨hx, ?_⟩
    rw [hf, h4, ht]
    intro c hc
    rcases List.mem_cons.mp hc with h | h
    · rw [h]; rfl
    · rcases List.mem_append.mp h with h | h
      · rw [List.eq_of_mem_replicate h]; rfl
      · rw [List.mem_singleton.mp h]; rfl

end RunControl

namespace RunControl

/-- Witness of C5 under the default handler: one argument of 5000 bytes. -/
theorem oversized_command_fails_explicitly_witness :
    CStrings (longArgv 5000).tail ∧ CLLEN ≤ assembledLength (longArgv 5000).tail ∧
    (∀ j ∈ (main sampleEnv (longArgv 5000) (fun _ => 0)).final.call_argv.written, j < 4096) ∧
    (main sampleEnv (longArgv 5000) (fun _ => 0)).exit = none ∧
    (∀ c ∈ (main sampleEnv (longArgv 5000) (fun _ => 0)).final.calls, Call.isSpawn c = false) :=
  have h := oversized_command_fails_explicitly sampleEnv (longArgv 5000) (fun _ => 0)
    (longArgv_wf 5000) (by rw [longArgv_length]; decide)
  ⟨longArgv_wf 5000, by rw [longArgv_length]; decide, h.2.1, (h.2.2 rfl).1, (h.2.2 rfl).2⟩

/-- C6: for every argument list of C strings whose assembled command fits in
the buffer, a run of `main` makes, after the `strcpy_s` and the `strcat_s`
calls that assemble the command, exactly one process-creation request; its
command line is the assembled string, its application name is `NULL`, handle
inheritance is off, the creation flags are `0`, environment and working
directory are `NULL`; nothing waits on the child, and `main` returns. -/
theorem one_spawn_request (env : Env) (argv : List (List Nat)) (init : Nat → Nat)
    (hwf : CStrings argv.tail) (hfit : assembledLength argv.tail < CLLEN) :
    (main env argv init).final.calls =
      Call.strcpy_s 0 :: List.replicate (2 * argv.tail.length) (Call.strcat_s 0) ++
        [Call.memset, Call.memset,
          Call.createProcess (expectedRequest env argv.tail)
            (env.spawn (expectedRequest env argv.tail))] ∧
    (expectedRequest env argv.tail).commandLine = commandString (assemble env argv init) ∧
    (expectedRequest env argv.tail).commandLine =
      PREFIX ++ (argv.tail.map (fun a => SPACE ++ a)).flatten ∧
    (expectedRequest env argv.tail).applicationName = none ∧
    (expectedRequest env argv.tail).inheritHandles = false ∧
    (expectedRequest env argv.tail).creationFlags = 0 ∧
    (expectedRequest env argv.tail).environment = none ∧
    (expectedRequest env argv.tail).currentDirectory = none ∧
    ((main env argv init).final.calls.filter Call.isSpawn).length = 1 ∧
    Call.wait ∉ (main env argv init).final.calls ∧
    (main env argv init).exit = some 0 := by
  obtain ⟨hh, hcalls⟩ := assemble_fits env argv init hwf hfit
  have hcmd := commandString_holds _ _ hh
  obtain ⟨hexit, hmain⟩ := main_alive env argv init hh.1
  rw [hcmd, hcalls] at hmain
  have hfull : (main env argv init).final.calls =
      Call.strcpy_s 0 :: List.replicate (2 * argv.tail.length) (Call.strcat_s 0) ++
        [Call.memset, Call.memset,
          Call.createProcess (expectedRequest env argv.tail)
            (env.spawn (expectedRequest env argv.tail))] := hmain
  refine ⟨hfull, hcmd.symm, rfl, rfl, rfl, rfl, rfl, rfl, ?_, ?_, hexit⟩
  · rw [hfull]
    simp [Call.isSpawn, List.filter_cons, List.filter_replicate]
  · rw [hfull]
    simp

/-- Witness of C6 on `run-control.exe --port 8080`. -/
theorem one_spawn_request_witness :
    CStrings sampleArgv.tail ∧ assembledLength sampleArgv.tail < CLLEN ∧
    ((main sampleEnv sampleArgv (fun _ => 0)).final.calls.filter Call.isSpawn).length = 1 ∧
    (main sampleEnv sampleArgv (fun _ => 0)).final.calls =
      [Call.strcpy_s 0, Call.strcat_s 0, Call.strcat_s 0, Call.strcat_s 0, Call.strcat_s 0,
        Call.memset, Call.memset,
        Call.createProcess (expectedRequest sampleEnv sampleArgv.tail) false] :=
  have h := one_spawn_request sampleEnv sampleArgv (fun _ => 0) (by decide) (by decide)
  ⟨by decide, by decide, h.2.2.2.2.2.2.2.2.1, h.1⟩

/-- C7: `argv[0]` is never forwarded: two invocations that differ only in
`argv[0]` assemble the same command string, and run identically. -/
theorem program_name_not_forwarded (env : Env) (a0 b0 : List Nat) (args : List (List Nat))
    (init : Nat → Nat) :
    commandString (assemble env (a0 :: args) init) =
      commandString (assemble env (b0 :: args) init) ∧
    (main env (a0 :: args) init).final.calls = (main env (b0 :: args) init).final.calls ∧
    (main env (a0 :: args) init).exit = (main env (b0 :: args) init).exit := by
  have h : assemble env (a0 :: args) init = assemble env (b0 :: args) init := by
    rw [assemble_eq, assemble_eq]
    rfl
  simp only [main, h]
  exact ⟨trivial, trivial, trivial⟩

/-- C8: for every argument list of C strings, if the command fits its length
is exactly `40 + Σ (length arg + 1)`; every `strcpy_s` and `strcat_s` call of
the assembly returns `0` if and only if `40 + Σ (length arg + 1) ≤ 4095`; and
after every iteration of the loop, that is with the loop stopped at any bound
up to `argc`, the buffer holds a NUL-terminated string of length at most
4095. -/
theorem length_and_loop_invariant (env : Env) (argv : List (List Nat)) (init : Nat → Nat)
    (hwf : CStrings argv.tail) :
    PREFIX.length = 40 ∧
    (40 + (argv.tail.map (fun a => a.length + 1)).sum ≤ 4095 →
      (commandString (assemble env argv init)).length =
        40 + (argv.tail.map (fun a => a.length + 1)).sum) ∧
    (assemblyOk (assemble env argv init) ↔
      40 + (argv.tail.map (fun a => a.length + 1)).sum ≤ 4095) ∧
    (∀ bound, bound ≤ argv.length →
      (commandString (assembleUpTo env argv init bound)).length ≤ 4095 ∧
      (assembleUpTo env argv init bound).call_argv.mem.getD
        (commandString (assembleUpTo env argv init bound)).length 0 = 0) := by
  have hc : CLLEN = 4096 := rfl
  have hal : assembledLength argv.tail = 40 + (argv.tail.map (fun a => a.length + 1)).sum := by
    rw [assembledLength, PREFIX_length]
  refine ⟨PREFIX_length, ?_, ⟨?_, ?_⟩, ?_⟩
  · intro hfit
    rw [commandString_holds _ _ (assemble_fits env argv init hwf (by omega)).1,
      intended_length, hal]
  · intro hok
    by_contra hnot
    exact overflow_not_ok env argv init hwf (by omega) hok
  · intro hfit
    exact fits_ok env argv init hwf (by omega)
  · intro k _
    exact safe_string _ (assembleUpTo_safe env argv init k)

/-- Witness of C8 on `run-control.exe --port 8080`: length `40 + 7 + 5`. -/
theorem length_and_loop_invariant_witness :
    CStrings sampleArgv.tail ∧
    (commandString (assemble sampleEnv sampleArgv (fun _ => 0))).length = 52 ∧
    assemblyOk (assemble sampleEnv sampleArgv (fun _ => 0)) :=
  have h := length_and_loop_invariant sampleEnv sampleArgv (fun _ => 0) (by decide)
  ⟨by decide, (h.2.1 (by decide)).trans (by decide), h.2.2.1.mpr (by decide)⟩

/-- C9: forwarding is not injective: the distinct argument lists `["a b"]` and
`["a", "b"]` both yield the prefix followed by `" a b"`. -/
theorem forwarding_not_injective (env : Env) (a0 : List Nat) (init : Nat → Nat) :
    [bytes "a b"] ≠ [bytes "a", bytes "b"] ∧
    commandString (assemble env [a0, bytes "a b"] init) = PREFIX ++ bytes " a b" ∧
    commandString (assemble env [a0, bytes "a", bytes "b"] init) = PREFIX ++ bytes " a b" ∧
    ¬ Function.Injective (fun args => commandString (assemble env (a0 :: args) init)) := by
  have w1 : CStrings [bytes "a b"] := by decide
  have l1 : assembledLength [bytes "a b"] < CLLEN := by decide
  have e1 : intended [bytes "a b"] = PREFIX ++ bytes " a b" := by decide
  have w2 : CStrings [bytes "a", bytes "b"] := by decide
  have l2 : assembledLength [bytes "a", bytes "b"] < CLLEN := by decide
  have e2 : intended [bytes "a", bytes "b"] = PREFIX ++ bytes " a b" := by decide
  have h1 : commandString (assemble env [a0, bytes "a b"] init) = PREFIX ++ bytes " a b" :=
    (commandString_holds _ _ (assemble_fits env [a0, bytes "a b"] init w1 l1).1).trans e1
  have h2 : commandString (assemble env [a0, bytes "a", bytes "b"] init) =
      PREFIX ++ bytes " a b" :=
    (commandString_holds _ _ (assemble_fits env [a0, bytes "a", bytes "b"] init w2 l2).1).trans e2
  have hne : [bytes "a b"] ≠ [bytes "a", bytes "b"] := by decide
  exact ⟨hne, h1, h2, fun hinj => hne (hinj (h1.trans h2.symm))⟩

end RunControl

namespace RunControl

/-! ## The handler matters -/

/-- Were a handler installed that returns to the caller, the ignored `ERANGE`
would let the run go on from an emptied buffer: after an argument that fills
the buffer, the next space is refused, the argument after it is appended to
the empty string, and `main` returns `0` with a command line that is a proper
prefix of the intended one. -/
theorem resume_handler_truncates :
    commandString (assemble resumeEnv fullThenMore (fun _ => 0)) =
      bytes "python\\python.exe" ∧
    (main resumeEnv fullThenMore (fun _ => 0)).exit = some 0 ∧
    (∃ t, t ≠ [] ∧ bytes "python\\python.exe" ++ t = intended fullThenMore.tail) := by
  have hlong : ∀ c ∈ List.replicate 4054 97, c ≠ 0 := by
    intro c hc
    rw [List.eq_of_mem_replicate hc]
    decide
  have hpy : ∀ c ∈ bytes "python\\python.exe", c ≠ 0 := by decide
  obtain ⟨h0, _⟩ := copyPrefix_holds resumeEnv (fun _ => 0)
  obtain ⟨h1, _⟩ := crtCall_fits resumeEnv SPACE _ PREFIX h0 SPACE_nonzero (by decide)
  have hsp : SPACE.length = 1 := rfl
  have hcl : CLLEN = 4096 := rfl
  obtain ⟨h2, _⟩ := crtCall_fits resumeEnv (List.replicate 4054 97) _ _ h1 hlong
    (by simp only [List.length_append, List.length_replicate, PREFIX_length, hsp, hcl]; omega)
  have h3 := crtCall_overflow_resume resumeEnv SPACE _ _ rfl h2 SPACE_nonzero
    (by simp only [List.length_append, List.length_replicate, PREFIX_length, hsp, hcl]; omega)
  obtain ⟨h4, _⟩ := crtCall_fits resumeEnv (bytes "python\\python.exe") _ [] h3 hpy (by decide)
  have hfin : Holds (assemble resumeEnv fullThenMore (fun _ => 0))
      (bytes "python\\python.exe") := by
    have hp : pieces fullThenMore.tail =
        [SPACE, List.replicate 4054 97, SPACE, bytes "python\\python.exe"] := rfl
    rw [assemble_eq, hp, catAll_cons, catAll_cons, catAll_cons, catAll_cons, catAll_nil]
    rw [List.nil_append] at h4
    exact h4
  refine ⟨commandString_holds _ _ hfin, (main_alive _ _ _ hfin.1).1, ?_⟩
  refine ⟨bytes " cam-control\\control.py" ++
    (SPACE ++ List.replicate 4054 97 ++ (SPACE ++ bytes "python\\python.exe")),
    List.append_ne_nil_of_left_ne_nil (by decide) _, ?_⟩
  simp only [fullThenMore, List.tail_cons, intended, List.map_cons, List.map_nil,
    List.flatten_cons, List.flatten_nil, List.append_nil, ← List.append_assoc]
  have : bytes "python\\python.exe" ++ bytes " cam-control\\control.py" = PREFIX := by decide
  rw [this]

end RunControl
